import Mathlib

/-
  Verification development for HiCExplorer's chicAggregateStatistic module
  (hicexplorer/chicAggregateStatistic.py).

  The Python code is shallowly embedded: records parsed from a viewpoint
  interaction file are lists of fields (strings or numbers); the ordered
  bin mapping (a Python dict with insertion order) is an association list;
  the per-chromosome interval tree of the external intervaltree/hicmatrix
  collaborators is an association list from chromosome names to interval
  lists, queried by the library's documented overlap semantics; in-place
  mutation of records is explicit state passing.  Machine floats are
  modelled by rationals.
-/

namespace ChicAggregate

/-- A field of a viewpoint record: the Python lists hold strings and
    (after mutation by the aggregator) numbers.  Numbers are modelled by
    rationals. -/
inductive Field where
  | str (s : String)
  | num (q : ℚ)
deriving DecidableEq, Repr

instance : Inhabited Field := ⟨Field.str ""⟩

/-- Numeric reading of a field, the model of Python float(x) on a
    well-formed numeric field. -/
def Field.toQ : Field → ℚ
  | .num q => q
  | .str _ => 0

/-- String reading of a field. -/
def Field.toStr : Field → String
  | .str s => s
  | .num q => toString q.num

/-- A data line of a viewpoint interaction file: a positional list of
    fields, as produced by the Viewpoint reader. -/
abbrev Record := List Field

/-- Python r[i] for a nonnegative index i. -/
def Record.getPos (r : Record) (i : ℕ) : Field := r.getD i default

/-- Python r[-i] for i ≥ 1: the i-th field from the right end. -/
def Record.getNeg (r : Record) (i : ℕ) : Field := r.getD (r.length - i) default

/-- Python r[i] = v for a nonnegative index i. -/
def Record.setPos (r : Record) (i : ℕ) (v : Field) : Record := r.set i v

/-- Python r[-i] = v for i ≥ 1. -/
def Record.setNeg (r : Record) (i : ℕ) (v : Field) : Record := r.set (r.length - i) v

/-- chromosome = pScoresDictionary[key][0]. -/
def Record.chrom (r : Record) : String := (r.getPos 0).toStr

/-- start = int(pScoresDictionary[key][1]). -/
def Record.start (r : Record) : ℤ := (r.getPos 1).toQ.floor

/-- end = int(pScoresDictionary[key][2]). -/
def Record.stop (r : Record) : ℤ := (r.getPos 2).toQ.floor

/-- An interval of the intervaltree library: a (begin, end, data) triple.
    hicmatrix's intervalListToIntervalTree stores the running region index
    as data. -/
structure Interval where
  lo : ℤ
  hi : ℤ
  data : ℕ
deriving DecidableEq, Repr

/-- The natural (lexicographic tuple) order of intervaltree Interval
    objects, used by Python sorted(). -/
def Interval.le (a b : Interval) : Prop :=
  a.lo < b.lo ∨ (a.lo = b.lo ∧ (a.hi < b.hi ∨ (a.hi = b.hi ∧ a.data ≤ b.data)))

instance : DecidableRel Interval.le := fun a b => by
  unfold Interval.le; infer_instance

instance : IsTotal Interval Interval.le := by
  constructor
  rintro ⟨al, ah, ad⟩ ⟨bl, bh, bd⟩
  simp only [Interval.le]
  omega

instance : IsTrans Interval Interval.le := by
  constructor
  rintro ⟨al, ah, ad⟩ ⟨bl, bh, bd⟩ ⟨cl, ch, cd⟩ h1 h2
  simp only [Interval.le] at h1 h2 ⊢
  omega

instance : IsAntisymm Interval Interval.le := by
  constructor
  rintro ⟨al, ah, ad⟩ ⟨bl, bh, bd⟩ h1 h2
  simp only [Interval.le] at h1 h2
  simp only [Interval.mk.injEq]
  omega

instance : IsRefl Interval Interval.le := by
  constructor
  rintro ⟨al, ah, ad⟩
  exact Or.inr ⟨rfl, Or.inr ⟨rfl, le_rfl⟩⟩

/-- A target region as read from a three-column target region file. -/
structure Region where
  chrom : String
  lo : ℤ
  hi : ℤ
deriving DecidableEq, Repr

/-- The per-chromosome interval tree: chromosome name to the intervals on
    that chromosome (the value set of one IntervalTree). -/
abbrev IntervalTreeMap := List (String × List Interval)

/-- Python dict lookup on the per-chromosome tree; none models
    chromosome not in target_regions_intervaltree. -/
def lookupChrom : IntervalTreeMap → String → Option (List Interval)
  | [], _ => none
  | (c, ivs) :: t, c' => if c = c' then some ivs else lookupChrom t c'

/-- The intervaltree overlap query tree[chromosome][start:end]: all
    intervals iv with iv.begin < end and iv.end > start. -/
def overlapping (ivs : List Interval) (s e : ℤ) : List Interval :=
  ivs.filter (fun iv => decide (iv.lo < e ∧ s < iv.hi))

/-- Python sorted(...) on intervals. -/
def sortedIntervals (l : List Interval) : List Interval :=
  List.insertionSort Interval.le l

/-- Assignment of one bin record to at most one target: the chromosome
    lookup, the overlap query, and sorted(target_interval)[0] of the code;
    none models the dropped-bin cases (chromosome absent, or no overlap). -/
def assignTarget (tree : IntervalTreeMap) (r : Record) : Option Interval :=
  match lookupChrom tree r.chrom with
  | none => none
  | some ivs => (sortedIntervals (overlapping ivs r.start r.stop)).head?

section Keyed

variable {K : Type} [LinearOrder K]

/-- Lookup in the ordered bin mapping (Python dict as association list). -/
def lookupRec : List (K × Record) → K → Option Record
  | [], _ => none
  | (k', r) :: t, k => if k' = k then some r else lookupRec t k

/-- In-place replacement of the record stored under a key, the functional
    image of mutating the aliased list object. -/
def updateRec : List (K × Record) → K → Record → List (K × Record)
  | [], _, _ => []
  | (k', r') :: t, k, r => if k' = k then (k', r) :: t else (k', r') :: updateRec t k r

/-- same_target_dict insertion: append the key to the bucket of the
    target if present, else append a new singleton bucket at the end. -/
def addAssign : List (Interval × List K) → Interval → K → List (Interval × List K)
  | [], t, k => [(t, [k])]
  | (t', ks) :: rest, t, k =>
    if t' = t then (t', ks ++ [k]) :: rest else (t', ks) :: addAssign rest t k

/-- The first loop of filter_scores_target_list: build same_target_dict
    by assigning every bin of the ordered mapping to at most one target. -/
def buildGroups (tree : IntervalTreeMap) (scores : List (K × Record)) :
    List (Interval × List K) :=
  scores.foldl
    (fun acc kr =>
      match assignTarget tree kr.2 with
      | none => acc
      | some t => addAssign acc t kr.1)
    []

/-- One step of the grouping fold, named for the proofs. -/
def groupStep (tree : IntervalTreeMap) (acc : List (Interval × List K))
    (kr : K × Record) : List (Interval × List K) :=
  match assignTarget tree kr.2 with
  | none => acc
  | some t => addAssign acc t kr.1

/-- Python sorted(same_target_dict[target]) on bin keys. -/
def sortKeys (ks : List K) : List K := List.insertionSort (fun a b => a ≤ b) ks

/-- The accumulation loop: values += np.array(list(map(float, r[-3:])))
    over the keys, elementwise on the trailing triple. -/
def tripleSum (dict : List (K × Record)) (ks : List K) : ℚ × ℚ × ℚ :=
  ks.foldl
    (fun v k =>
      let r := (lookupRec dict k).getD []
      (v.1 + (r.getNeg 3).toQ, v.2.1 + (r.getNeg 2).toQ, v.2.2 + (r.getNeg 1).toQ))
    (0, 0, 0)

/-- The mutation sequence on new_data_line: seed with the first sorted
    key's record, overwrite index 2 and index -5 from the last sorted
    key's record, overwrite the last three fields with the sums. -/
def aggLine (dict : List (K × Record)) (firstK lastK : K) (v : ℚ × ℚ × ℚ) : Record :=
  let first := (lookupRec dict firstK).getD []
  let last := (lookupRec dict lastK).getD []
  let r1 := first.setPos 2 (last.getPos 2)
  let r2 := r1.setNeg 5 (last.getNeg 5)
  let r3 := r2.setNeg 3 (.num v.1)
  let r4 := r3.setNeg 2 (.num v.2.1)
  r4.setNeg 1 (.num v.2.2)

/-- One iteration of the second loop of filter_scores_target_list: state
    is (accepted_scores, pScoresDictionary); the dictionary is read in its
    current (possibly already mutated) state, exactly as the Python code
    reads the shared objects. -/
def filterStep (st : List (K × Record) × List (K × Record)) (g : Interval × List K) :
    List (K × Record) × List (K × Record) :=
  match sortKeys g.2 with
  | [] => st
  | k0 :: rest =>
    let ks := k0 :: rest
    let v := tripleSum st.2 ks
    let line := aggLine st.2 k0 (ks.getLastD k0) v
    (st.1 ++ [(k0, line)], updateRec st.2 k0 line)

/-- filter_scores_target_list on a prebuilt interval tree
    (pTargetIntervalTree path).  Returns (accepted_scores, the mutated
    pScoresDictionary). -/
def filter_scores_target_list (scores : List (K × Record)) (tree : IntervalTreeMap) :
    List (K × Record) × List (K × Record) :=
  (buildGroups tree scores).foldl filterStep ([], scores)

/-- hicmatrix intervalListToIntervalTree insertion of one interval under
    its chromosome. -/
def insertTree : IntervalTreeMap → String → Interval → IntervalTreeMap
  | [], c, iv => [(c, [iv])]
  | (c', ivs) :: t, c, iv =>
    if c' = c then (c', ivs ++ [iv]) :: t else (c', ivs) :: insertTree t c iv

/-- Modelled from the spec: the external Interval Index collaborator
    (hicmatrix intervalListToIntervalTree, not part of the sources):
    given a list of (chromosome, start, end) regions it builds a
    per-chromosome interval tree supporting overlap queries, the running
    region index being the interval's data. -/
def intervalListToIntervalTree (regions : List Region) : IntervalTreeMap :=
  regions.enum.foldl (fun t p => insertTree t p.2.chrom ⟨p.2.lo, p.2.hi, p.1⟩) []

/-- The intervals an indexed region list contributes to one chromosome. -/
def pairIntervals (pairs : List (ℕ × Region)) (c : String) : List Interval :=
  (pairs.filter (fun p => p.2.chrom == c)).map (fun p => ⟨p.2.lo, p.2.hi, p.1⟩)

/-- The intervals a region list contributes to one chromosome: the
    regions with that chromosome, in order, tagged with their running
    index. -/
def chromIntervals (regions : List Region) (c : String) : List Interval :=
  pairIntervals regions.enum c

/-- filter_scores_target_list on an explicit target region list
    (pTargetList path): the parsed region list (utilities.readBed output)
    is turned into an interval tree and the same overlap loop runs; an
    empty region list short-circuits to an empty result. -/
def filter_scores_target_list_explicit (scores : List (K × Record))
    (target_regions : List Region) :
    List (K × Record) × List (K × Record) :=
  if target_regions.length = 0 then ([], scores)
  else filter_scores_target_list scores (intervalListToIntervalTree target_regions)

/-- Per-target key list characterized against the original mapping: the
    keys whose record is assigned to the target, in mapping order. -/
def bucketOf (tree : IntervalTreeMap) (scores : List (K × Record)) (t : Interval) : List K :=
  (scores.filter (fun kr => decide (assignTarget tree kr.2 = some t))).map (fun kr => kr.1)

/-- Closed form of one emitted aggregated row: sort the group keys, key
    the row by the first, read every record from the original mapping. -/
def groupEntry (scores : List (K × Record)) (ks : List K) : Option (K × Record) :=
  match sortKeys ks with
  | [] => none
  | k0 :: rest =>
    some (k0, aggLine scores k0 ((k0 :: rest).getLastD k0) (tripleSum scores (k0 :: rest)))

/-- Association-list lookup on the grouping. -/
def lookupGroup : List (Interval × List K) → Interval → Option (List K)
  | [], _ => none
  | (t', ks) :: rest, t => if t' = t then some ks else lookupGroup rest t

/-- The trailing numeric triple (value_a, value_b, value_c) of a record. -/
def recTriple (r : Record) : ℚ × ℚ × ℚ :=
  ((r.getNeg 3).toQ, (r.getNeg 2).toQ, (r.getNeg 1).toQ)

end Keyed

/-! ## The batch orchestrator (call_multi_core) and manifest parsing -/

/-- The one message a worker puts on its dedicated queue: the produced
    output file names, or the failure payload built as
    'Fail: ' + str(exp) + traceback. -/
inductive QueueMsg where
  | ok (names : List String)
  | fail (msg : String)
deriving DecidableEq, Repr

/-- The orchestrator's test for a failure marker, Python
    'Fail:' in background_data_thread: substring containment on a string
    payload (every failure payload starts with the marker), membership on
    a name-list payload. -/
def queueMsgHasFail : QueueMsg → Bool
  | .ok names => names.contains "Fail:"
  | .fail msg => List.isPrefixOf "Fail:".data msg.data

/-- Python iteration of a shard result in the flattening comprehension:
    a list yields its items, a string yields its one-character substrings. -/
def queueMsgItems : QueueMsg → List String
  | .ok names => names
  | .fail msg => msg.toList.map (fun c => String.mk [c])

/-- After every shard has reported: exit 1 if any result carries the
    failure marker, otherwise flatten the per-shard name lists in shard
    order. -/
def collectOutcome (results : List QueueMsg) : Except ℕ (List String) :=
  if results.any queueMsgHasFail then .error 1
  else .ok (results.map queueMsgItems).flatten

/-- if len(pInteractionFilesList) < pArgs.threads: pArgs.threads = len(...). -/
def clampThreads (numJobs threads : ℕ) : ℕ :=
  if numJobs < threads then numJobs else threads

/-- The contiguous job slices handed to the workers:
    jobs[i*per:(i+1)*per] for i < threads-1 and jobs[i*per:] for the last,
    with per = len(jobs) // threads. -/
def shardSlices {α : Type} (jobs : List α) (threads : ℕ) : List (List α) :=
  (List.range threads).map (fun i =>
    let per := jobs.length / threads
    if i < threads - 1 then (jobs.drop (i * per)).take per else jobs.drop (i * per))

/-- The target slices handed to the workers: a single shared target file
    goes to every shard unsliced, otherwise the slice indices of the job
    list are reused. -/
def shardTargets {α : Type} (targets : List α) (numJobs threads : ℕ) : List (List α) :=
  (List.range threads).map (fun i =>
    let per := numJobs / threads
    if targets.length = 1 then targets
    else if i < threads - 1 then (targets.drop (i * per)).take per else targets.drop (i * per))

/-- call_multi_core with the per-shard worker outcomes abstracted into a
    function of the shard slices: clamp the worker count, slice, run every
    shard, collect all results, then fail or flatten. -/
def call_multi_core {α β : Type} (jobs : List α) (targets : List β) (threads : ℕ)
    (worker : List α → List β → Bool → QueueMsg) : Except ℕ (List String) :=
  let threads' := clampThreads jobs.length threads
  let oneTarget := targets.length == 1
  collectOutcome ((List.range threads').map (fun i =>
    worker ((shardSlices jobs threads').getD i [])
      ((shardTargets targets jobs.length threads').getD i []) (oneTarget = true)))

/-- The tail of main in batch mode: the written file-names manifest,
    produced only when the orchestrator returned instead of exiting. -/
def mainBatchManifest (outcome : Except ℕ (List String)) : Option String :=
  match outcome with
  | .error _ => none
  | .ok names => some (String.intercalate "\n" names)

/-- The batch-manifest pairing loop of main: readline twice (stripped; a
    missing line reads as the empty string), append the pair when both
    lines are non-empty, loop while the first read is non-empty. -/
def parsePairs : List String → List (String × String)
  | [] => []
  | [_] => []
  | l1 :: l2 :: rest =>
    if l1 ≠ "" ∧ l2 ≠ "" then (l1, l2) :: parsePairs rest
    else if l1 ≠ "" then parsePairs rest
    else []

/-- Consecutive (line 2k, line 2k+1) pairs of the manifest, a trailing
    odd line paired with the empty string: the specification-side view of
    the pairing loop. -/
def pairUp : List String → List (String × String)
  | [] => []
  | [l1] => [(l1, "")]
  | l1 :: l2 :: rest => (l1, l2) :: pairUp rest

/-! ## The writer (write) -/

/-- Modelled from the spec: the package version string
    (hicexplorer._version, not part of the sources); its value is
    irrelevant to every claim. -/
def hicexplorer_version : String := "3.4.1"

/-- The fixed column-header line of the aggregated output file. -/
def headerLineOut : String :=
  "#Chromosome\tStart\tEnd\tGene\tSum of interactions\tRelative distance\tRaw target"

/-- The version comment chunk written first. -/
def versionChunk : String :=
  "# Aggregated file, created with HiCExplorer\x27s chicAggregateStatistic version "
    ++ hicexplorer_version ++ "\n"

/-- The five digits after the decimal point of Python format(x, '10.5f'),
    left zero padded, for the scaled magnitude n < 100000. -/
def digitChar5 (n : ℕ) : String :=
  String.mk [Nat.digitChar (n / 10000 % 10), Nat.digitChar (n / 1000 % 10),
    Nat.digitChar (n / 100 % 10), Nat.digitChar (n / 10 % 10), Nat.digitChar (n % 10)]

/-- Right-justify in a field of the given width by left space padding. -/
def padLeftSpaces (w : ℕ) (s : String) : String :=
  String.mk (List.replicate (w - s.length) ' ') ++ s

/-- Python format(x, '10.5f'): five digits after the decimal point,
    right-justified in a field of at least ten characters.  (The rational
    model rounds half away from the even-digit tie rule of binary floats;
    width and precision, which the claims are about, are exact.) -/
def formatFixed10_5 (q : ℚ) : String :=
  let scaled : ℤ := round (q * 100000)
  let a := scaled.natAbs
  padLeftSpaces 10
    ((if scaled < 0 then "-" else "") ++ toString (a / 100000) ++ "." ++ digitChar5 (a % 100000))

/-- One data row chunk of the output file: the first six fields of the
    (mutated) interaction line joined by tabs, then the formatted last
    value of the aggregated row. -/
def rowChunk {K : Type} [LinearOrder K] (pInteractionLines : List (K × Record))
    (kv : K × Record) : String :=
  String.intercalate "\t" ((((lookupRec pInteractionLines kv.1).getD []).take 6).map Field.toStr)
    ++ "\t" ++ formatFixed10_5 (kv.2.getNeg 1).toQ ++ "\n"

/-- write(pOutFileName, pHeader, pNeighborhoods, pInteractionLines): the
    sequence of chunks passed to file.write, in order. -/
def writeFile {K : Type} [LinearOrder K] (pHeader : String)
    (pNeighborhoods : Option (List (K × Record)))
    (pInteractionLines : List (K × Record)) : List String :=
  let chunks := [versionChunk, pHeader, headerLineOut, "\n"]
  match pNeighborhoods with
  | none => chunks
  | some nb => nb.foldl (fun cs kv => cs ++ [rowChunk pInteractionLines kv]) chunks

/-! ## run_target_list_compilation -/

/-- The argument fields of chicAggregateStatistic read by
    run_target_list_compilation. -/
structure AggArgs where
  batchMode : Bool
  interactionFileFolder : String
  targetFileFolder : String
  outputFolder : String
  outFileNameSuffix : String

/-- The external readers: the Viewpoint reader
    readInteractionFileForAggregateStatistics (header and ordered bin
    mapping of a file) and utilities.readBed (region list of a target
    file); both are collaborators outside the aggregation core. -/
structure AggEnv (K : Type) where
  readInteraction : String → String × List (K × Record)
  readBed : String → List Region

/-- Python str.split with a one-character separator, on the character
    list of a string. -/
def splitOnChar (c : Char) (l : List Char) : List (List Char) :=
  l.foldr
    (fun ch acc =>
      match acc with
      | [] => if ch = c then [[], []] else [[ch]]
      | cur :: rest => if ch = c then [] :: cur :: rest else (ch :: cur) :: rest)
    [[]]

/-- outFileName = '.'.join(sample.split('/')[-1].split('.')[:-1]) + '_' + suffix. -/
def outName (sample suffix : String) : String :=
  let base := (splitOnChar (Char.ofNat 47) sample.toList).getLastD []
  let parts := (splitOnChar (Char.ofNat 46) base).dropLast
  String.mk (List.intercalate [Char.ofNat 46] parts) ++ "_" ++ suffix

/-- The accumulated file-system effects of one worker: appended error-log
    lines, written files (path and chunk list), and the collected
    outfile_names. -/
structure RunState (K : Type) where
  errorLog : List String
  written : List (String × List String)
  names : List String
deriving Repr

/-- The per-job target file name resolution of run_target_list_compilation. -/
def targetFileFor (args : AggArgs) (targetList : List String) (oneTarget : Bool)
    (i : ℕ) : Option String :=
  if args.batchMode = true ∧ 1 ≤ targetList.length ∧ oneTarget = false then
    some (if args.targetFileFolder ≠ "." then
            args.targetFileFolder ++ "/" ++ targetList.getD i ""
          else targetList.getD i "")
  else if args.batchMode = true ∧ targetList.length = 1 ∧ oneTarget = true then none
  else some (targetList.getD i "")

section Run

variable {K : Type} [LinearOrder K]

/-- absolute_sample_path resolution against the interaction file folder. -/
def absSamplePath (args : AggArgs) (sample : String) : String :=
  if args.interactionFileFolder ≠ "." then args.interactionFileFolder ++ "/" ++ sample
  else sample

/-- The dispatch inside filter_scores_target_list between the explicit
    pTargetList path and the prebuilt pTargetIntervalTree path; none
    models the raised 'No target list given.' error. -/
def filterDispatch (env : AggEnv K) (data : List (K × Record))
    (targetFile : Option String) (tree : Option IntervalTreeMap) :
    Option (List (K × Record) × List (K × Record)) :=
  match targetFile with
  | some f => some (filter_scores_target_list_explicit data (env.readBed f))
  | none =>
    match tree with
    | some tr => some (filter_scores_target_list data tr)
    | none => none

/-- The body of the inner sample loop: read the sample, filter against
    the target file or the prebuilt tree, log the empty-result condition,
    record the output name in batch mode, and write the output file.  An
    error value models the raised exception caught by the worker. -/
def processSample (args : AggArgs) (env : AggEnv K) (tree : Option IntervalTreeMap)
    (targetFile : Option String) (pair : String × String) (sample : String)
    (st : RunState K) : Except String (RunState K) :=
  let hd := env.readInteraction (absSamplePath args sample)
  match filterDispatch env hd.2 targetFile tree with
  | none => .error "Fail: No target list given."
  | some fr =>
    let errorLog' :=
      if fr.1.length = 0 ∧ args.batchMode = true then
        st.errorLog ++ ["Failed for: " ++ pair.1 ++ " and " ++ pair.2 ++ ".\n"]
      else st.errorLog
    let oName := outName sample args.outFileNameSuffix
    let names' := if args.batchMode = true then st.names ++ [oName] else st.names
    let oPath := if args.outputFolder ≠ "." then args.outputFolder ++ "/" ++ oName
      else oName
    .ok ⟨errorLog', st.written ++ [(oPath, writeFile hd.1 (some fr.1) fr.2)], names'⟩

/-- One job of the outer loop: both samples of the pair are processed;
    after a failure the remaining work is skipped (the exception leaves
    the loop). -/
def runJobStep (args : AggArgs) (env : AggEnv K) (tree : Option IntervalTreeMap)
    (targetList : List String) (oneTarget : Bool)
    (acc : RunState K × Option String) (ij : ℕ × (String × String)) :
    RunState K × Option String :=
  match acc.2 with
  | some _ => acc
  | none =>
    let tf := targetFileFor args targetList oneTarget ij.1
    match processSample args env tree tf ij.2 ij.2.1 acc.1 with
    | .error e => (acc.1, some e)
    | .ok st1 =>
      match processSample args env tree tf ij.2 ij.2.2 st1 with
      | .error e => (st1, some e)
      | .ok st2 => (st2, none)

/-- run_target_list_compilation: the worker over its job slice; the
    second component is the one message put on the queue. -/
def run_target_list_compilation (args : AggArgs) (env : AggEnv K)
    (jobs : List (String × String)) (targetList : List String) (oneTarget : Bool) :
    RunState K × QueueMsg :=
  let tree : Option IntervalTreeMap :=
    if args.batchMode = true ∧ targetList.length = 1 ∧ oneTarget = true then
      some (intervalListToIntervalTree (env.readBed (targetList.getD 0 "")))
    else none
  match jobs.enum.foldl (runJobStep args env tree targetList oneTarget) (⟨[], [], []⟩, none) with
  | (st, some e) => (st, .fail e)
  | (st, none) => (st, .ok st.names)

end Run

/-! ## Concrete inputs -/

/-- A nine-field viewpoint record
    [chromosome, start, end, gene, raw-target label, relative distance,
    value_a, value_b, value_c]; index -5 is the raw-target label. -/
def mkRec (c : String) (s e : ℚ) (g x : String) (d a b v : ℚ) : Record :=
  [.str c, .num s, .num e, .str g, .str x, .num d, .num a, .num b, .num v]

/-- The spec scenario: bins chr1:100-200 with triple (1,2,3) and
    chr1:200-300 with triple (4,5,6), keys 0 and 1. -/
def ex1_scores : List (ℕ × Record) :=
  [(0, mkRec "chr1" 100 200 "g" "u" 11 1 2 3),
   (1, mkRec "chr1" 200 300 "g" "v" 12 4 5 6)]

/-- The single target region chr1:100-300 as a prebuilt interval tree. -/
def ex1_tree : IntervalTreeMap := [("chr1", [⟨100, 300, 0⟩])]

/-- The expected aggregated row of the spec scenario. -/
def ex1_row : Record :=
  [.str "chr1", .num 100, .num 300, .str "g", .str "v", .num 11, .num 5, .num 7, .num 9]

/-- The spec scenario with the two bins permuted in the mapping. -/
def ex1_scores_perm : List (ℕ × Record) :=
  [(1, mkRec "chr1" 200 300 "g" "v" 12 4 5 6),
   (0, mkRec "chr1" 100 200 "g" "u" 11 1 2 3)]

/-- A bin overlapping but not contained in the target region of
    ex4_regions: chr1:150-250 against target chr1:100-200. -/
def ex4_scores : List (ℕ × Record) :=
  [(0, mkRec "chr1" 150 250 "g" "u" 11 1 2 3)]

/-- The explicit target region list chr1:100-200. -/
def ex4_regions : List Region := [⟨"chr1", 100, 200⟩]

/-- A bin on a chromosome absent from the target list: yields zero
    aggregated rows. -/
def ex5_scores : List (ℕ × Record) :=
  [(0, mkRec "chr2" 100 200 "g" "u" 11 1 2 3)]

/-- The target region list chr1:100-200 for the empty-result scenario. -/
def ex5_regions : List Region := [⟨"chr1", 100, 200⟩]

/-- Single-run-mode arguments. -/
def args5s : AggArgs := ⟨false, ".", ".", ".", "agg.txt"⟩

/-- Batch-mode arguments. -/
def args5b : AggArgs := ⟨true, ".", ".", ".", "agg.txt"⟩

/-- The file environment of the empty-result scenario. -/
def env5 : AggEnv ℕ where
  readInteraction := fun _ => ("header\n", ex5_scores)
  readBed := fun _ => ex5_regions

end ChicAggregate

/-! ## Association list and update lemmas -/

namespace ChicAggregate

section KeyedLemmas

variable {K : Type} [LinearOrder K]

theorem lookupRec_isSome_iff (l : List (K × Record)) (k : K) :
    (lookupRec l k).isSome = true ↔ k ∈ l.map Prod.fst := by
  induction l with
  | nil => simp [lookupRec]
  | cons p t ih =>
    obtain ⟨k', r⟩ := p
    by_cases h : k' = k
    · subst h; simp [lookupRec]
    · simp [lookupRec, h, ih, Ne.symm h]

theorem lookupRec_mem {l : List (K × Record)} {k : K} {r : Record}
    (h : lookupRec l k = some r) : (k, r) ∈ l := by
  induction l with
  | nil => simp [lookupRec] at h
  | cons p t ih =>
    obtain ⟨k', r'⟩ := p
    by_cases hk : k' = k
    · subst hk
      simp only [lookupRec, eq_self_iff_true, if_true, Option.some.injEq] at h
      subst h; exact List.mem_cons_self _ _
    · simp only [lookupRec, if_neg hk] at h
      exact List.mem_cons_of_mem _ (ih h)

theorem lookupRec_of_mem_nodup {l : List (K × Record)} {k : K} {r : Record}
    (hn : (l.map Prod.fst).Nodup) (h : (k, r) ∈ l) : lookupRec l k = some r := by
  induction l with
  | nil => simp at h
  | cons p t ih =>
    obtain ⟨k', r'⟩ := p
    simp only [List.map_cons, List.nodup_cons] at hn
    rcases List.mem_cons.mp h with h1 | h1
    · obtain ⟨rfl, rfl⟩ := Prod.mk.injEq .. ▸ (Prod.ext_iff.mp h1)
      simp [lookupRec]
    · have hne : k' ≠ k := by
        rintro rfl
        exact hn.1 (List.mem_map.mpr ⟨(k', r), h1, rfl⟩)
      simp only [lookupRec, if_neg hne]
      exact ih hn.2 h1

theorem lookupRec_perm {l l' : List (K × Record)} (h : l.Perm l')
    (hn : (l.map Prod.fst).Nodup) (k : K) : lookupRec l k = lookupRec l' k := by
  have hn' : (l'.map Prod.fst).Nodup := ((h.map Prod.fst).nodup_iff).mp hn
  cases hr : lookupRec l k with
  | some r =>
    exact (lookupRec_of_mem_nodup hn' (h.mem_iff.mp (lookupRec_mem hr))).symm
  | none =>
    cases hr' : lookupRec l' k with
    | none => rfl
    | some r' =>
      have : k ∈ l.map Prod.fst := by
        have := lookupRec_mem hr'
        exact List.mem_map.mpr ⟨(k, r'), h.mem_iff.mpr this, rfl⟩
      rw [← lookupRec_isSome_iff] at this
      rw [hr] at this
      simp at this

theorem map_fst_updateRec (l : List (K × Record)) (k : K) (r : Record) :
    (updateRec l k r).map Prod.fst = l.map Prod.fst := by
  induction l with
  | nil => rfl
  | cons p t ih =>
    obtain ⟨k', r'⟩ := p
    by_cases h : k' = k
    · simp [updateRec, h]
    · simp [updateRec, h, ih]

theorem lookupRec_updateRec_ne (l : List (K × Record)) (k : K) (r : Record)
    {k' : K} (h : k' ≠ k) : lookupRec (updateRec l k r) k' = lookupRec l k' := by
  induction l with
  | nil => rfl
  | cons p t ih =>
    obtain ⟨k'', r''⟩ := p
    by_cases h2 : k'' = k
    · subst h2
      simp [updateRec, lookupRec, Ne.symm h]
    · by_cases h3 : k'' = k'
      · subst h3; simp [updateRec, lookupRec, h2]
      · simp [updateRec, lookupRec, h2, h3, ih]

theorem lookupRec_updateRec_self (l : List (K × Record)) (k : K) (r : Record)
    (h : k ∈ l.map Prod.fst) : lookupRec (updateRec l k r) k = some r := by
  induction l with
  | nil => simp at h
  | cons p t ih =>
    obtain ⟨k', r'⟩ := p
    by_cases h2 : k' = k
    · subst h2; simp [updateRec, lookupRec]
    · simp only [List.map_cons, List.mem_cons] at h
      rcases h with h | h

      · exact absurd h.symm h2
      · simp [updateRec, lookupRec, h2, ih h]

theorem lookupGroup_addAssign (acc : List (Interval × List K)) (t t' : Interval) (k : K) :
    lookupGroup (addAssign acc t k) t' =
      if t' = t then some ((lookupGroup acc t).getD [] ++ [k]) else lookupGroup acc t' := by
  induction acc with
  | nil =>
    by_cases h : t' = t
    · subst h; simp [addAssign, lookupGroup]
    · simp [addAssign, lookupGroup, h, Ne.symm h]
  | cons p rest ih =>
    obtain ⟨t'', ks⟩ := p
    by_cases h1 : t'' = t
    · subst h1
      by_cases h2 : t' = t''
      · subst h2; simp [addAssign, lookupGroup]
      · simp [addAssign, lookupGroup, h2, Ne.symm h2]
    · by_cases h2 : t'' = t'
      · subst h2
        have h3 : ¬ t'' = t := h1
        simp [addAssign, lookupGroup, h1, Ne.symm h3]
      · simp [addAssign, lookupGroup, h1, h2, ih]

theorem map_fst_addAssign (acc : List (Interval × List K)) (t : Interval) (k : K) :
    (addAssign acc t k).map Prod.fst =
      if t ∈ acc.map Prod.fst then acc.map Prod.fst else acc.map Prod.fst ++ [t] := by
  induction acc with
  | nil => simp [addAssign]
  | cons p rest ih =>
    obtain ⟨t', ks⟩ := p
    by_cases h : t' = t
    · subst h; simp [addAssign]
    · simp only [addAssign, if_neg h, List.map_cons, ih]
      by_cases hm : t ∈ rest.map Prod.fst
      · simp [hm, List.mem_cons, Ne.symm h]
      · simp [hm, List.mem_cons, Ne.symm h]

theorem nodup_fst_addAssign {acc : List (Interval × List K)} (t : Interval) (k : K)
    (h : (acc.map Prod.fst).Nodup) : ((addAssign acc t k).map Prod.fst).Nodup := by
  rw [map_fst_addAssign]
  by_cases hm : t ∈ acc.map Prod.fst
  · simpa [hm] using h
  · simp only [hm, if_false]
    rw [List.nodup_append]
    refine ⟨h, List.nodup_singleton t, ?_⟩
    intro a ha
    simp only [List.mem_singleton]
    rintro rfl
    exact hm ha

theorem buildGroups_eq_fold (tree : IntervalTreeMap) (scores : List (K × Record)) :
    buildGroups tree scores = scores.foldl (groupStep tree) [] := rfl

theorem bucketOf_cons (tree : IntervalTreeMap) (kr : K × Record)
    (rest : List (K × Record)) (t : Interval) :
    bucketOf tree (kr :: rest) t =
      if assignTarget tree kr.2 = some t then kr.1 :: bucketOf tree rest t
      else bucketOf tree rest t := by
  by_cases h : assignTarget tree kr.2 = some t
  · simp [bucketOf, h]
  · simp [bucketOf, h]

theorem lookupGroup_fold_getD (tree : IntervalTreeMap) (scores : List (K × Record))
    (acc : List (Interval × List K)) (t : Interval) :
    (lookupGroup (scores.foldl (groupStep tree) acc) t).getD [] =
      (lookupGroup acc t).getD [] ++ bucketOf tree scores t := by
  induction scores generalizing acc with
  | nil => simp [bucketOf]
  | cons kr rest ih =>
    rw [List.foldl_cons, ih, bucketOf_cons]
    cases hA : assignTarget tree kr.2 with
    | none => simp [groupStep, hA]
    | some t' =>
      by_cases h : t = t'
      · subst h
        simp [groupStep, hA, lookupGroup_addAssign]
      · have hss : ¬ (some t' = some t) := by
          intro hc
          exact h (Option.some_inj.mp hc).symm
        rw [if_neg hss]
        simp [groupStep, hA, lookupGroup_addAssign, h]

theorem lookupGroup_fold_isSome (tree : IntervalTreeMap) (scores : List (K × Record))
    (acc : List (Interval × List K)) (t : Interval) :
    (lookupGroup (scores.foldl (groupStep tree) acc) t).isSome = true ↔
      (lookupGroup acc t).isSome = true ∨ bucketOf tree scores t ≠ [] := by
  induction scores generalizing acc with
  | nil => simp [bucketOf]
  | cons kr rest ih =>
    rw [List.foldl_cons, ih, bucketOf_cons]
    cases hA : assignTarget tree kr.2 with
    | none => simp [groupStep, hA]
    | some t' =>
      by_cases h : t = t'
      · subst h
        simp [groupStep, hA, lookupGroup_addAssign]
      · have hss : ¬ (some t' = some t) := by
          intro hc
          exact h (Option.some_inj.mp hc).symm
        rw [if_neg hss]
        simp [groupStep, hA, lookupGroup_addAssign, h]

theorem lookupGroup_buildGroups (tree : IntervalTreeMap) (scores : List (K × Record))
    (t : Interval) :
    lookupGroup (buildGroups tree scores) t =
      if bucketOf tree scores t = [] then none else some (bucketOf tree scores t) := by
  rw [buildGroups_eq_fold]
  have h1 := lookupGroup_fold_getD tree scores [] t
  have h2 := lookupGroup_fold_isSome tree scores [] t
  simp only [lookupGroup, Option.getD_none, Option.isSome_none, List.nil_append] at h1 h2
  by_cases hb : bucketOf tree scores t = []
  · simp only [hb, if_true, eq_self_iff_true]
    cases hl : lookupGroup (scores.foldl (groupStep tree) []) t with
    | none => rfl
    | some ks =>
      rw [hl] at h2
      simp only [Option.isSome_some, true_iff] at h2
      rcases h2 with h2 | h2
      · exact absurd h2 (by simp)
      · exact absurd hb h2
  · simp only [hb, if_false]
    have : (lookupGroup (scores.foldl (groupStep tree) []) t).isSome = true := by
      rw [h2]; right; exact hb
    obtain ⟨ks, hks⟩ := Option.isSome_iff_exists.mp this
    rw [hks] at h1 ⊢
    simp only [Option.getD_some] at h1
    rw [h1]

theorem nodup_fst_buildGroups (tree : IntervalTreeMap) (scores : List (K × Record)) :
    ((buildGroups tree scores).map Prod.fst).Nodup := by
  rw [buildGroups_eq_fold]
  have : ∀ (l : List (K × Record)) (acc : List (Interval × List K)),
      (acc.map Prod.fst).Nodup → ((l.foldl (groupStep tree) acc).map Prod.fst).Nodup := by
    intro l
    induction l with
    | nil => intro acc h; exact h
    | cons kr rest ih =>
      intro acc h
      rw [List.foldl_cons]
      apply ih
      cases hA : assignTarget tree kr.2 with
      | none => simpa [groupStep, hA] using h
      | some t' =>
        simp only [groupStep, hA]
        exact nodup_fst_addAssign t' kr.1 h
  exact this scores [] (by simp)

theorem lookupGroup_mem {g : List (Interval × List K)} {t : Interval} {ks : List K}
    (h : lookupGroup g t = some ks) : (t, ks) ∈ g := by
  induction g with
  | nil => simp [lookupGroup] at h
  | cons p rest ih =>
    obtain ⟨t', ks'⟩ := p
    by_cases h1 : t' = t
    · subst h1
      simp only [lookupGroup, eq_self_iff_true, if_true, Option.some.injEq] at h
      subst h; exact List.mem_cons_self _ _
    · simp only [lookupGroup, if_neg h1] at h
      exact List.mem_cons_of_mem _ (ih h)

theorem lookupGroup_of_mem_nodup {g : List (Interval × List K)} {t : Interval}
    {ks : List K} (hn : (g.map Prod.fst).Nodup) (h : (t, ks) ∈ g) :
    lookupGroup g t = some ks := by
  induction g with
  | nil => simp at h
  | cons p rest ih =>
    obtain ⟨t', ks'⟩ := p
    simp only [List.map_cons, List.nodup_cons] at hn
    rcases List.mem_cons.mp h with h1 | h1
    · obtain ⟨rfl, rfl⟩ := Prod.mk.injEq .. ▸ (Prod.ext_iff.mp h1)
      simp [lookupGroup]
    · have hne : t' ≠ t := by
        rintro rfl
        exact hn.1 (List.mem_map.mpr ⟨(t', ks), h1, rfl⟩)
      simp only [lookupGroup, if_neg hne]
      exact ih hn.2 h1

/-- Every entry of the grouping is exactly the bucket of its target. -/
theorem mem_buildGroups_eq_bucket {tree : IntervalTreeMap} {scores : List (K × Record)}
    {t : Interval} {ks : List K} (h : (t, ks) ∈ buildGroups tree scores) :
    ks = bucketOf tree scores t ∧ ks ≠ [] := by
  have hl := lookupGroup_of_mem_nodup (nodup_fst_buildGroups tree scores) h
  rw [lookupGroup_buildGroups] at hl
  by_cases hb : bucketOf tree scores t = []
  · rw [if_pos hb] at hl; exact absurd hl (by simp)
  · rw [if_neg hb] at hl
    obtain rfl := (Option.some.injEq .. ▸ hl).symm
    exact ⟨rfl, hb⟩

theorem mem_bucketOf_iff {tree : IntervalTreeMap} {scores : List (K × Record)}
    {t : Interval} {k : K} :
    k ∈ bucketOf tree scores t ↔
      ∃ r, (k, r) ∈ scores ∧ assignTarget tree r = some t := by
  simp only [bucketOf, List.mem_map, List.mem_filter, decide_eq_true_eq]
  constructor
  · rintro ⟨⟨k', r⟩, ⟨hm, ha⟩, rfl⟩
    exact ⟨r, hm, ha⟩
  · rintro ⟨r, hm, ha⟩
    exact ⟨(k, r), ⟨hm, ha⟩, rfl⟩

theorem getLastD_mem {α : Type} (l : List α) (h : l ≠ []) : ∀ d, l.getLastD d ∈ l := by
  induction l with
  | nil => exact absurd rfl h
  | cons a t ih =>
    intro d
    rw [List.getLastD_cons]
    cases t with
    | nil => simp [List.getLastD]
    | cons b t2 => exact List.mem_cons_of_mem _ (ih (by simp) a)

theorem sortKeys_perm (ks : List K) : List.Perm (sortKeys ks) ks :=
  List.perm_insertionSort _ ks

theorem mem_sortKeys {ks : List K} {k : K} : k ∈ sortKeys ks ↔ k ∈ ks :=
  (sortKeys_perm ks).mem_iff

theorem sortKeys_ne_nil {ks : List K} (h : ks ≠ []) : sortKeys ks ≠ [] := by
  intro hc
  exact h (List.eq_nil_of_length_eq_zero (by rw [← (sortKeys_perm ks).length_eq, hc]; rfl))

theorem sortKeys_sorted (ks : List K) : (sortKeys ks).Sorted (fun a b => a ≤ b) :=
  List.sorted_insertionSort _ ks

theorem tripleSum_congr {d1 d2 : List (K × Record)} :
    ∀ ks : List K, (∀ k ∈ ks, lookupRec d1 k = lookupRec d2 k) →
    tripleSum d1 ks = tripleSum d2 ks := by
  have aux : ∀ (ks : List K) (v : ℚ × ℚ × ℚ),
      (∀ k ∈ ks, lookupRec d1 k = lookupRec d2 k) →
      ks.foldl (fun v k =>
        let r := (lookupRec d1 k).getD []
        (v.1 + (r.getNeg 3).toQ, v.2.1 + (r.getNeg 2).toQ, v.2.2 + (r.getNeg 1).toQ)) v =
      ks.foldl (fun v k =>
        let r := (lookupRec d2 k).getD []
        (v.1 + (r.getNeg 3).toQ, v.2.1 + (r.getNeg 2).toQ, v.2.2 + (r.getNeg 1).toQ)) v := by
    intro ks
    induction ks with
    | nil => intro v _; rfl
    | cons k t ih =>
      intro v h
      simp only [List.foldl_cons]
      rw [h k (List.mem_cons_self _ _)]
      exact ih _ (fun k' hk' => h k' (List.mem_cons_of_mem _ hk'))
  intro ks h
  exact aux ks (0, 0, 0) h

theorem aggLine_congr {d1 d2 : List (K × Record)} {k1 k2 : K} {v : ℚ × ℚ × ℚ}
    (h1 : lookupRec d1 k1 = lookupRec d2 k1) (h2 : lookupRec d1 k2 = lookupRec d2 k2) :
    aggLine d1 k1 k2 v = aggLine d2 k1 k2 v := by
  unfold aggLine
  rw [h1, h2]

theorem groupEntry_key_mem {scores : List (K × Record)} {ks : List K} {k : K}
    {r : Record} (h : groupEntry scores ks = some (k, r)) : k ∈ ks := by
  cases hs : sortKeys ks with
  | nil => rw [groupEntry, hs] at h; simp at h
  | cons k0 rest =>
    rw [groupEntry, hs] at h
    simp only [Option.some.injEq, Prod.mk.injEq] at h
    obtain ⟨rfl, -⟩ := h
    exact mem_sortKeys.mp (hs ▸ List.mem_cons_self _ _)

theorem lookupRec_filterMap_groupEntry_none {scores : List (K × Record)}
    {gs : List (Interval × List K)} {k : K} (h : ∀ g ∈ gs, k ∉ g.2) :
    lookupRec (gs.filterMap (fun g => groupEntry scores g.2)) k = none := by
  induction gs with
  | nil => rfl
  | cons g gs ih =>
    rw [List.filterMap_cons]
    cases hge : groupEntry scores g.2 with
    | none => exact ih (fun g' hg' => h g' (List.mem_cons_of_mem _ hg'))
    | some kr =>
      obtain ⟨k', r'⟩ := kr
      have hk' : k' ∈ g.2 := groupEntry_key_mem hge
      have hne : k' ≠ k := by
        rintro rfl
        exact h g (List.mem_cons_self _ _) hk'
      simp only [lookupRec, if_neg hne]
      exact ih (fun g' hg' => h g' (List.mem_cons_of_mem _ hg'))

/-- Closed form of the mutating second loop: if the buckets are nonempty,
    pairwise disjoint, drawn from the mapping's keys, and the threaded
    dictionary still agrees with the original mapping on every bucket key,
    then the fold emits exactly the per-group rows computed against the
    original mapping, and the final dictionary holds exactly the emitted
    rows at the emitted keys and is untouched elsewhere. -/
theorem filterStep_fold_closed (scores : List (K × Record)) :
    ∀ (gs : List (Interval × List K)) (acc0 dict0 : List (K × Record)),
    (∀ g ∈ gs, g.2 ≠ []) →
    List.Pairwise (fun g g' => ∀ k, k ∈ g.2 → k ∉ g'.2) gs →
    (∀ g ∈ gs, ∀ k ∈ g.2, k ∈ scores.map Prod.fst) →
    (∀ g ∈ gs, ∀ k ∈ g.2, lookupRec dict0 k = lookupRec scores k) →
    (gs.foldl filterStep (acc0, dict0)).1 =
        acc0 ++ gs.filterMap (fun g => groupEntry scores g.2)
    ∧ (∀ k r, lookupRec (gs.filterMap (fun g => groupEntry scores g.2)) k = some r →
        lookupRec (gs.foldl filterStep (acc0, dict0)).2 k = some r)
    ∧ (∀ k, lookupRec (gs.filterMap (fun g => groupEntry scores g.2)) k = none →
        lookupRec (gs.foldl filterStep (acc0, dict0)).2 k = lookupRec dict0 k) := by
  intro gs
  induction gs with
  | nil =>
    intro acc0 dict0 _ _ _ _
    refine ⟨by simp, ?_, ?_⟩
    · intro k r h; simp [lookupRec] at h
    · intro k _; simp
  | cons g gs ih =>
    intro acc0 dict0 hne hdisj hkeys hagree
    have hgne : g.2 ≠ [] := hne g (List.mem_cons_self _ _)
    have hsne : sortKeys g.2 ≠ [] := sortKeys_ne_nil hgne
    obtain ⟨k0, rest, hs⟩ := List.exists_cons_of_ne_nil hsne
    have hk0g : k0 ∈ g.2 := mem_sortKeys.mp (hs ▸ List.mem_cons_self _ _)
    have hklg : (k0 :: rest).getLastD k0 ∈ g.2 :=
      mem_sortKeys.mp (hs ▸ getLastD_mem (k0 :: rest) (by simp) k0)
    have hagree_g : ∀ k ∈ (k0 :: rest), lookupRec dict0 k = lookupRec scores k := by
      intro k hk
      exact hagree g (List.mem_cons_self _ _) k (mem_sortKeys.mp (hs ▸ hk))
    have hts : tripleSum dict0 (k0 :: rest) = tripleSum scores (k0 :: rest) :=
      tripleSum_congr _ hagree_g
    have hal : aggLine dict0 k0 ((k0 :: rest).getLastD k0) (tripleSum scores (k0 :: rest)) =
        aggLine scores k0 ((k0 :: rest).getLastD k0) (tripleSum scores (k0 :: rest)) :=
      aggLine_congr (hagree g (List.mem_cons_self _ _) k0 hk0g)
        (hagree g (List.mem_cons_self _ _) _ hklg)
    have hstep : filterStep (acc0, dict0) g =
        (acc0 ++ [(k0, aggLine scores k0 ((k0 :: rest).getLastD k0)
            (tripleSum scores (k0 :: rest)))],
          updateRec dict0 k0 (aggLine scores k0 ((k0 :: rest).getLastD k0)
            (tripleSum scores (k0 :: rest)))) := by
      simp only [filterStep, hs]
      rw [hts, hal]
    have hge : groupEntry scores g.2 =
        some (k0, aggLine scores k0 ((k0 :: rest).getLastD k0)
          (tripleSum scores (k0 :: rest))) := by
      rw [groupEntry, hs]
    obtain ⟨hhead, htail⟩ := List.pairwise_cons.mp hdisj
    have hk0_new : k0 ∈ scores.map Prod.fst := hkeys g (List.mem_cons_self _ _) k0 hk0g
    have hk0_dict0 : (lookupRec dict0 k0).isSome = true := by
      rw [hagree g (List.mem_cons_self _ _) k0 hk0g]
      exact (lookupRec_isSome_iff scores k0).mpr hk0_new
    set line := aggLine scores k0 ((k0 :: rest).getLastD k0)
      (tripleSum scores (k0 :: rest)) with hline
    have hk0_keys_dict0 : k0 ∈ dict0.map Prod.fst := (lookupRec_isSome_iff dict0 k0).mp hk0_dict0
    have hagree1 : ∀ g' ∈ gs, ∀ k ∈ g'.2, lookupRec (updateRec dict0 k0 line) k = lookupRec scores k := by
      intro g' hg' k hk
      have hkne : k ≠ k0 := by
        rintro rfl
        exact hhead g' hg' k hk0g hk
      rw [lookupRec_updateRec_ne _ _ _ hkne]
      exact hagree g' (List.mem_cons_of_mem _ hg') k hk
    obtain ⟨ih1, ih2, ih3⟩ := ih (acc0 ++ [(k0, line)]) (updateRec dict0 k0 line)
      (fun g' hg' => hne g' (List.mem_cons_of_mem _ hg')) htail
      (fun g' hg' => hkeys g' (List.mem_cons_of_mem _ hg')) hagree1
    have hfm : (g :: gs).filterMap (fun g => groupEntry scores g.2) =
        (k0, line) :: gs.filterMap (fun g => groupEntry scores g.2) := by
      rw [List.filterMap_cons, hge]
    refine ⟨?_, ?_, ?_⟩
    · rw [List.foldl_cons, hstep, hfm, ih1]
      simp
    · intro k r hk
      rw [hfm] at hk
      by_cases hkk : k0 = k
      · subst hkk
        simp only [lookupRec, eq_self_iff_true, if_true, Option.some.injEq] at hk
        subst hk
        have hnotin : ∀ g' ∈ gs, k0 ∉ g'.2 := fun g' hg' => hhead g' hg' k0 hk0g
        have hA : lookupRec (gs.filterMap (fun g => groupEntry scores g.2)) k0 = none :=
          lookupRec_filterMap_groupEntry_none hnotin
        rw [List.foldl_cons, hstep]
        rw [ih3 k0 hA]
        exact lookupRec_updateRec_self _ _ _ hk0_keys_dict0
      · simp only [lookupRec, if_neg hkk] at hk
        rw [List.foldl_cons, hstep]
        exact ih2 k r hk
    · intro k hk
      rw [hfm] at hk
      by_cases hkk : k0 = k
      · subst hkk
        simp [lookupRec] at hk
      · simp only [lookupRec, if_neg hkk] at hk
        rw [List.foldl_cons, hstep, ih3 k hk]
        exact lookupRec_updateRec_ne _ _ _ (fun hc => hkk hc.symm)

theorem record_unique_of_nodup {scores : List (K × Record)}
    (hnd : (scores.map Prod.fst).Nodup) {k : K} {r r' : Record}
    (h1 : (k, r) ∈ scores) (h2 : (k, r') ∈ scores) : r = r' := by
  have e1 := lookupRec_of_mem_nodup hnd h1
  have e2 := lookupRec_of_mem_nodup hnd h2
  rw [e1] at e2
  exact Option.some_inj.mp e2

theorem buildGroups_disjoint {tree : IntervalTreeMap} {scores : List (K × Record)}
    (hnd : (scores.map Prod.fst).Nodup) :
    List.Pairwise (fun g g' => ∀ k, k ∈ g.2 → k ∉ g'.2) (buildGroups tree scores) := by
  have hp : List.Pairwise (fun g g' : Interval × List K => g.1 ≠ g'.1)
      (buildGroups tree scores) := List.pairwise_map.mp (nodup_fst_buildGroups tree scores)
  refine hp.imp_of_mem ?_
  intro a b ha hb hab k hk hk'
  obtain ⟨t, ks⟩ := a
  obtain ⟨t', ks'⟩ := b
  have e1 := (mem_buildGroups_eq_bucket ha).1
  have e2 := (mem_buildGroups_eq_bucket hb).1
  subst e1; subst e2
  obtain ⟨r, hmr, har⟩ := mem_bucketOf_iff.mp hk
  obtain ⟨r', hmr', har'⟩ := mem_bucketOf_iff.mp hk'
  obtain rfl := record_unique_of_nodup hnd hmr hmr'
  rw [har] at har'
  exact hab (Option.some_inj.mp har')

theorem buckets_sub_keys {tree : IntervalTreeMap} {scores : List (K × Record)} :
    ∀ g ∈ buildGroups tree scores, ∀ k ∈ g.2, k ∈ scores.map Prod.fst := by
  intro g hg k hk
  obtain ⟨t, ks⟩ := g
  have e := (mem_buildGroups_eq_bucket hg).1
  subst e
  obtain ⟨r, hmr, -⟩ := mem_bucketOf_iff.mp hk
  exact List.mem_map.mpr ⟨(k, r), hmr, rfl⟩

/-- The full behaviour of filter_scores_target_list on a mapping with
    distinct keys: the accepted rows are exactly the per-group closed-form
    rows, the mutated mapping holds each emitted row under its key, and
    every other key still holds its original record. -/
theorem filter_scores_spec (scores : List (K × Record)) (tree : IntervalTreeMap)
    (hnd : (scores.map Prod.fst).Nodup) :
    (filter_scores_target_list scores tree).1 =
      (buildGroups tree scores).filterMap (fun g => groupEntry scores g.2)
    ∧ (∀ k r, lookupRec (filter_scores_target_list scores tree).1 k = some r →
        lookupRec (filter_scores_target_list scores tree).2 k = some r)
    ∧ (∀ k, lookupRec (filter_scores_target_list scores tree).1 k = none →
        lookupRec (filter_scores_target_list scores tree).2 k = lookupRec scores k) := by
  have hne : ∀ g ∈ buildGroups tree scores, g.2 ≠ [] := by
    intro g hg
    obtain ⟨t, ks⟩ := g
    exact (mem_buildGroups_eq_bucket hg).2
  have hmain := filterStep_fold_closed scores (buildGroups tree scores) [] scores
    hne (buildGroups_disjoint hnd) buckets_sub_keys (fun _ _ _ _ => rfl)
  obtain ⟨h1, h2, h3⟩ := hmain
  have heq : filter_scores_target_list scores tree =
      (buildGroups tree scores).foldl filterStep ([], scores) := rfl
  rw [List.nil_append] at h1
  refine ⟨by rw [heq, h1], ?_, ?_⟩
  · intro k r hk
    rw [heq] at hk ⊢
    rw [h1] at hk
    exact h2 k r hk
  · intro k hk
    rw [heq] at hk ⊢
    rw [h1] at hk
    exact h3 k hk

theorem head_sortedIntervals_min {l : List Interval} {m : Interval}
    (h : (sortedIntervals l).head? = some m) : m ∈ l ∧ ∀ x ∈ l, Interval.le m x := by
  have hperm : List.Perm (sortedIntervals l) l := List.perm_insertionSort _ l
  have hsorted : (sortedIntervals l).Sorted Interval.le := List.sorted_insertionSort _ l
  cases hsl : sortedIntervals l with
  | nil => rw [hsl] at h; simp at h
  | cons a tl =>
    rw [hsl] at h
    simp only [List.head?_cons, Option.some.injEq] at h
    subst h
    rw [hsl] at hperm hsorted
    have hm : a ∈ l := hperm.mem_iff.mp (List.mem_cons_self _ _)
    refine ⟨hm, ?_⟩
    intro y hy
    have hy' : y ∈ a :: tl := hperm.mem_iff.mpr hy
    rcases List.mem_cons.mp hy' with h1 | h1
    · subst h1; exact refl_of Interval.le y
    · exact (List.sorted_cons.mp hsorted).1 y h1

theorem sortedIntervals_head_none_iff (l : List Interval) :
    (sortedIntervals l).head? = none ↔ l = [] := by
  have hperm : List.Perm (sortedIntervals l) l := List.perm_insertionSort _ l
  rw [List.head?_eq_none_iff]
  constructor
  · intro h
    exact List.eq_nil_of_length_eq_zero (by rw [← hperm.length_eq, h]; rfl)
  · rintro rfl
    exact List.eq_nil_of_length_eq_zero (by rw [hperm.length_eq]; rfl)

theorem assignTarget_none_of_chrom_absent {tree : IntervalTreeMap} {r : Record}
    (h : lookupChrom tree r.chrom = none) : assignTarget tree r = none := by
  rw [assignTarget, h]

theorem assignTarget_none_iff_no_overlap {tree : IntervalTreeMap} {r : Record}
    {ivs : List Interval} (h : lookupChrom tree r.chrom = some ivs) :
    (assignTarget tree r = none ↔ overlapping ivs r.start r.stop = []) := by
  rw [assignTarget, h]
  exact sortedIntervals_head_none_iff _

theorem assignTarget_min {tree : IntervalTreeMap} {r : Record} {ivs : List Interval}
    {t : Interval} (h : lookupChrom tree r.chrom = some ivs)
    (ha : assignTarget tree r = some t) :
    t ∈ overlapping ivs r.start r.stop ∧
      ∀ x ∈ overlapping ivs r.start r.stop, Interval.le t x := by
  rw [assignTarget, h] at ha
  exact head_sortedIntervals_min ha

theorem mem_overlapping_iff {ivs : List Interval} {s e : ℤ} {iv : Interval} :
    iv ∈ overlapping ivs s e ↔ iv ∈ ivs ∧ iv.lo < e ∧ s < iv.hi := by
  simp [overlapping, List.mem_filter]

theorem getD_set_self (l : List Field) {i : ℕ} (v : Field) (h : i < l.length) :
    (l.set i v).getD i default = v := by
  rw [List.getD_eq_getElem _ _ (by simpa using h)]
  simp [List.getElem_set]

theorem getD_set_ne (l : List Field) {i j : ℕ} (v : Field) (hne : i ≠ j) :
    (l.set i v).getD j default = l.getD j default := by
  by_cases hj : j < l.length
  · rw [List.getD_eq_getElem _ _ (by simpa using hj), List.getD_eq_getElem _ _ hj]
    simp [List.getElem_set, hne]
  · rw [List.getD_eq_default, List.getD_eq_default]
    · exact Nat.le_of_not_lt hj
    · simpa using Nat.le_of_not_lt hj

/-- Reading the last three fields of the overwrite chain of aggLine. -/
theorem recTriple_set_chain (l : List Field) (a b v1 v2 v3 : Field) (h : 6 ≤ l.length) :
    recTriple (((((Record.setPos l 2 a).setNeg 5 b).setNeg 3 v1).setNeg 2 v2).setNeg 1 v3) =
      (v1.toQ, v2.toQ, v3.toQ) := by
  simp only [recTriple, Record.setPos, Record.setNeg, Record.getNeg, List.length_set]
  have e1 : ((((((l.set 2 a).set (l.length - 5) b).set (l.length - 3) v1).set
      (l.length - 2) v2).set (l.length - 1) v3).getD (l.length - 3) default) = v1 := by
    rw [getD_set_ne _ _ (by omega), getD_set_ne _ _ (by omega)]
    exact getD_set_self _ _ (by simp; omega)
  have e2 : ((((((l.set 2 a).set (l.length - 5) b).set (l.length - 3) v1).set
      (l.length - 2) v2).set (l.length - 1) v3).getD (l.length - 2) default) = v2 := by
    rw [getD_set_ne _ _ (by omega)]
    exact getD_set_self _ _ (by simp; omega)
  have e3 : ((((((l.set 2 a).set (l.length - 5) b).set (l.length - 3) v1).set
      (l.length - 2) v2).set (l.length - 1) v3).getD (l.length - 1) default) = v3 := by
    exact getD_set_self _ _ (by simp; omega)
  rw [e1, e2, e3]

/-- The aggregated row carries exactly the accumulated triple in its last
    three fields, provided the seeding record has at least six fields (so
    that the earlier overwrites at index 2 and index -5 do not collide). -/
theorem recTriple_aggLine {d : List (K × Record)} {k1 k2 : K} {v : ℚ × ℚ × ℚ}
    (h : 6 ≤ ((lookupRec d k1).getD []).length) :
    recTriple (aggLine d k1 k2 v) = v := by
  simp only [aggLine]
  rw [recTriple_set_chain _ _ _ _ _ _ h]
  rfl

/-- The accumulation fold computes the componentwise sums of the trailing
    triples over the key list. -/
theorem tripleSum_eq (dict : List (K × Record)) (ks : List K) :
    tripleSum dict ks =
      ((ks.map (fun k => (((lookupRec dict k).getD []).getNeg 3).toQ)).sum,
       (ks.map (fun k => (((lookupRec dict k).getD []).getNeg 2).toQ)).sum,
       (ks.map (fun k => (((lookupRec dict k).getD []).getNeg 1).toQ)).sum) := by
  have aux : ∀ (ks : List K) (v : ℚ × ℚ × ℚ),
      ks.foldl (fun v k =>
        let r := (lookupRec dict k).getD []
        (v.1 + (r.getNeg 3).toQ, v.2.1 + (r.getNeg 2).toQ, v.2.2 + (r.getNeg 1).toQ)) v =
      (v.1 + (ks.map (fun k => (((lookupRec dict k).getD []).getNeg 3).toQ)).sum,
       v.2.1 + (ks.map (fun k => (((lookupRec dict k).getD []).getNeg 2).toQ)).sum,
       v.2.2 + (ks.map (fun k => (((lookupRec dict k).getD []).getNeg 1).toQ)).sum) := by
    intro ks
    induction ks with
    | nil => intro v; simp
    | cons k t ih =>
      intro v
      simp only [List.foldl_cons, List.map_cons, List.sum_cons]
      rw [ih]
      ring_nf
  rw [tripleSum, aux]
  simp

theorem groupEntry_congr {d1 d2 : List (K × Record)} {ks : List K}
    (h : ∀ k ∈ ks, lookupRec d1 k = lookupRec d2 k) :
    groupEntry d1 ks = groupEntry d2 ks := by
  cases hs : sortKeys ks with
  | nil => simp only [groupEntry, hs]
  | cons k0 rest =>
    simp only [groupEntry, hs]
    have hmem : ∀ k ∈ (k0 :: rest), lookupRec d1 k = lookupRec d2 k := by
      intro k hk
      exact h k (mem_sortKeys.mp (hs ▸ hk))
    rw [tripleSum_congr _ hmem,
      aggLine_congr (hmem k0 (List.mem_cons_self _ _))
        (hmem _ (getLastD_mem (k0 :: rest) (by simp) k0))]

/-- Buckets only depend on the mapping up to permutation. -/
theorem bucketOf_perm {tree : IntervalTreeMap} {scores scores' : List (K × Record)}
    (hperm : List.Perm scores' scores) (t : Interval) :
    List.Perm (bucketOf tree scores' t) (bucketOf tree scores t) :=
  (hperm.filter _).map _

/-- Sorted key lists of permuted buckets coincide. -/
theorem sortKeys_eq_of_perm {ks ks' : List K} (h : List.Perm ks' ks) :
    sortKeys ks' = sortKeys ks := by
  refine List.eq_of_perm_of_sorted ?_ (sortKeys_sorted ks') (sortKeys_sorted ks)
  exact (sortKeys_perm ks').trans (h.trans (sortKeys_perm ks).symm)

theorem groupEntry_eq_of_sortKeys_eq {d : List (K × Record)} {ks1 ks2 : List K}
    (h : sortKeys ks1 = sortKeys ks2) : groupEntry d ks1 = groupEntry d ks2 := by
  simp only [groupEntry, h]

end KeyedLemmas

/-! ## Evaluation of the concrete scenario -/

theorem ex1_accepted_eval :
    (filter_scores_target_list ex1_scores ex1_tree).1 = [(0, ex1_row)] := by
  norm_num [filter_scores_target_list, buildGroups, assignTarget, lookupChrom,
    overlapping, sortedIntervals, addAssign, filterStep, sortKeys, tripleSum,
    aggLine, lookupRec, updateRec, Record.getNeg, Record.getPos, Record.setNeg,
    Record.setPos, Record.chrom, Record.start, Record.stop, Field.toQ, Field.toStr,
    ex1_scores, ex1_tree, ex1_row, mkRec, List.insertionSort, List.orderedInsert,
    Interval.le, List.foldl, List.filter, List.getD, List.set, List.getLastD]

/-! ## Claim theorems -/

/-- C1: for every ordered bin mapping with distinct keys and every target
    tree, each group of bins assigned to one target produces exactly one
    aggregated row, the closed-form row of its group: seeded from the
    first sorted bin's full record, with the end field (index 2) and the
    boundary field at index -5 overwritten from the last sorted bin and
    the last three values overwritten by the elementwise sums (aggLine and
    tripleSum read against the original mapping), keyed by the first
    sorted bin's key; on the concrete scenario of two bins chr1:100-200
    (1,2,3) and chr1:200-300 (4,5,6) with the single target chr1:100-300,
    the one row has triple (5,7,9) and end field 300. -/
theorem C1_aggregate_row_per_group {K : Type} [LinearOrder K]
    (scores : List (K × Record)) (tree : IntervalTreeMap)
    (hnd : (scores.map Prod.fst).Nodup) :
    ((filter_scores_target_list scores tree).1 =
        (buildGroups tree scores).filterMap (fun g => groupEntry scores g.2)
      ∧ ∀ t ks, (t, ks) ∈ buildGroups tree scores →
          ∃ k0 rest, sortKeys ks = k0 :: rest ∧
            groupEntry scores ks =
              some (k0, aggLine scores k0 ((k0 :: rest).getLastD k0)
                (tripleSum scores (k0 :: rest))))
    ∧ ((filter_scores_target_list ex1_scores ex1_tree).1 = [(0, ex1_row)]
      ∧ ex1_row.getPos 2 = Field.num 300 ∧ recTriple ex1_row = (5, 7, 9)) := by
  refine ⟨⟨(filter_scores_spec scores tree hnd).1, ?_⟩, ex1_accepted_eval, rfl, rfl⟩
  intro t ks hmem
  have hne := (mem_buildGroups_eq_bucket hmem).2
  obtain ⟨k0, rest, hs⟩ := List.exists_cons_of_ne_nil (sortKeys_ne_nil hne)
  exact ⟨k0, rest, hs, by simp only [groupEntry, hs]⟩

/-- Witness for C1 at the concrete spec scenario. -/
theorem C1_aggregate_row_per_group_witness :
    (filter_scores_target_list ex1_scores ex1_tree).1 = [(0, ex1_row)]
    ∧ ex1_row.getPos 2 = Field.num 300 ∧ recTriple ex1_row = (5, 7, 9) :=
  (C1_aggregate_row_per_group ex1_scores ex1_tree (by decide)).2

/-- C2: for every set of bins assigned to one target the emitted triple is
    the elementwise sum of the trailing triples over the group, and the
    emitted row of every target is invariant under permutation of the
    input mapping, the group being sorted by bin key before accumulation. -/
theorem C2_summation_invariant {K : Type} [LinearOrder K]
    (scores scores' : List (K × Record)) (tree : IntervalTreeMap)
    (hnd : (scores.map Prod.fst).Nodup) (hperm : List.Perm scores' scores)
    (hlen : ∀ kr ∈ scores, 6 ≤ kr.2.length) :
    (∀ t ks, (t, ks) ∈ buildGroups tree scores →
      ∃ k0 r, groupEntry scores ks = some (k0, r) ∧
        recTriple r =
          ((ks.map (fun k => (((lookupRec scores k).getD []).getNeg 3).toQ)).sum,
           (ks.map (fun k => (((lookupRec scores k).getD []).getNeg 2).toQ)).sum,
           (ks.map (fun k => (((lookupRec scores k).getD []).getNeg 1).toQ)).sum))
    ∧ (∀ t : Interval, groupEntry scores' (bucketOf tree scores' t) =
        groupEntry scores (bucketOf tree scores t)) := by
  constructor
  · intro t ks hmem
    obtain ⟨hbk, hne⟩ := mem_buildGroups_eq_bucket hmem
    obtain ⟨k0, rest, hs⟩ := List.exists_cons_of_ne_nil (sortKeys_ne_nil hne)
    have hk0ks : k0 ∈ ks := mem_sortKeys.mp (hs ▸ List.mem_cons_self _ _)
    obtain ⟨r0, hr0, -⟩ := mem_bucketOf_iff.mp (hbk ▸ hk0ks)
    have hlook : lookupRec scores k0 = some r0 := lookupRec_of_mem_nodup hnd hr0
    have h6 : 6 ≤ ((lookupRec scores k0).getD []).length := by
      rw [hlook]
      exact hlen (k0, r0) hr0
    refine ⟨k0, aggLine scores k0 ((k0 :: rest).getLastD k0)
      (tripleSum scores (k0 :: rest)), by simp only [groupEntry, hs], ?_⟩
    rw [recTriple_aggLine h6, tripleSum_eq]
    have hp : List.Perm (k0 :: rest) ks := hs ▸ sortKeys_perm ks
    rw [(hp.map _).sum_eq, (hp.map _).sum_eq, (hp.map _).sum_eq]
  · intro t
    have hsk : sortKeys (bucketOf tree scores' t) = sortKeys (bucketOf tree scores t) :=
      sortKeys_eq_of_perm (bucketOf_perm hperm t)
    rw [groupEntry_eq_of_sortKeys_eq hsk]
    refine groupEntry_congr ?_
    intro k _
    exact lookupRec_perm hperm (((hperm.map Prod.fst).nodup_iff).mpr hnd) k

/-- Witness for C2: the permuted concrete scenario yields the same
    aggregated row for the target chr1:100-300. -/
theorem C2_summation_invariant_witness :
    groupEntry ex1_scores_perm (bucketOf ex1_tree ex1_scores_perm ⟨100, 300, 0⟩) =
      groupEntry ex1_scores (bucketOf ex1_tree ex1_scores ⟨100, 300, 0⟩) :=
  (C2_summation_invariant ex1_scores ex1_scores_perm ex1_tree
    (by decide) (by decide) (by decide)).2 ⟨100, 300, 0⟩

/-- C3: a bin whose chromosome is absent from the index is dropped; a bin
    with no overlapping target is dropped; when targets overlap the bin's
    half-open span the bin is assigned to the least overlapping interval
    in the index's natural ordering; and a bin key lies in the bucket of a
    target if and only if the bin's record is assigned to exactly that
    target. -/
theorem C3_assignment_rule {K : Type} [LinearOrder K]
    (scores : List (K × Record)) (tree : IntervalTreeMap) (k : K) (r : Record)
    (hnd : (scores.map Prod.fst).Nodup) (hmem : (k, r) ∈ scores) :
    (lookupChrom tree r.chrom = none → assignTarget tree r = none)
    ∧ (∀ ivs, lookupChrom tree r.chrom = some ivs →
        (overlapping ivs r.start r.stop = [] → assignTarget tree r = none)
        ∧ (overlapping ivs r.start r.stop ≠ [] →
            ∃ t, assignTarget tree r = some t ∧ t ∈ overlapping ivs r.start r.stop ∧
              ∀ x ∈ overlapping ivs r.start r.stop, Interval.le t x))
    ∧ (∀ t : Interval, k ∈ bucketOf tree scores t ↔ assignTarget tree r = some t) := by
  refine ⟨assignTarget_none_of_chrom_absent, ?_, ?_⟩
  · intro ivs hivs
    refine ⟨(assignTarget_none_iff_no_overlap hivs).mpr, ?_⟩
    intro hov
    have hns : (sortedIntervals (overlapping ivs r.start r.stop)).head? ≠ none := by
      rw [Ne, sortedIntervals_head_none_iff]
      exact hov
    obtain ⟨t, ht⟩ := Option.ne_none_iff_exists'.mp hns
    have ha : assignTarget tree r = some t := by
      rw [assignTarget, hivs]
      exact ht
    obtain ⟨htm, htmin⟩ := assignTarget_min hivs ha
    exact ⟨t, ha, htm, htmin⟩
  · intro t
    constructor
    · intro hk
      obtain ⟨r', hm', ha'⟩ := mem_bucketOf_iff.mp hk
      obtain rfl := record_unique_of_nodup hnd hmem hm'
      exact ha'
    · intro ha
      exact mem_bucketOf_iff.mpr ⟨r, hmem, ha⟩

/-- Witness for C3 at the concrete scenario: membership of key 0 in the
    bucket of the single target is equivalent to assignment to it. -/
theorem C3_assignment_rule_witness :
    0 ∈ bucketOf ex1_tree ex1_scores ⟨100, 300, 0⟩ ↔
      assignTarget ex1_tree (mkRec "chr1" 100 200 "g" "u" 11 1 2 3) =
        some ⟨100, 300, 0⟩ :=
  (C3_assignment_rule ex1_scores ex1_tree 0 (mkRec "chr1" 100 200 "g" "u" 11 1 2 3)
    (by decide) (by decide)).2.2 ⟨100, 300, 0⟩

/-- C9: filter_scores_target_list mutates its input mapping: after the
    call every emitted key's entry holds exactly the emitted aggregated
    row (the same record object in the Python code), and every other
    entry still holds its original record. -/
theorem C9_input_mutation {K : Type} [LinearOrder K]
    (scores : List (K × Record)) (tree : IntervalTreeMap)
    (hnd : (scores.map Prod.fst).Nodup) :
    (∀ k r, lookupRec (filter_scores_target_list scores tree).1 k = some r →
        lookupRec (filter_scores_target_list scores tree).2 k = some r)
    ∧ (∀ k, lookupRec (filter_scores_target_list scores tree).1 k = none →
        lookupRec (filter_scores_target_list scores tree).2 k = lookupRec scores k) :=
  ⟨(filter_scores_spec scores tree hnd).2.1, (filter_scores_spec scores tree hnd).2.2⟩

/-- Witness for C9 at the concrete scenario: the entry of key 0 holds the
    aggregated row, the entry of key 1 is unchanged. -/
theorem C9_input_mutation_witness :
    lookupRec (filter_scores_target_list ex1_scores ex1_tree).2 0 = some ex1_row
    ∧ lookupRec (filter_scores_target_list ex1_scores ex1_tree).2 1 =
        lookupRec ex1_scores 1 := by
  constructor
  · refine (C9_input_mutation ex1_scores ex1_tree (by decide)).1 0 ex1_row ?_
    rw [ex1_accepted_eval]
    rfl
  · refine (C9_input_mutation ex1_scores ex1_tree (by decide)).2 1 ?_
    rw [ex1_accepted_eval]
    rfl

/-! ## The explicit-target-list path (C4 infrastructure) -/

theorem lookupChrom_insertTree (t : IntervalTreeMap) (c : String) (iv : Interval)
    (c' : String) :
    lookupChrom (insertTree t c iv) c' =
      if c = c' then some ((lookupChrom t c).getD [] ++ [iv])
      else lookupChrom t c' := by
  induction t with
  | nil =>
    by_cases h : c = c'
    · subst h; simp [insertTree, lookupChrom]
    · simp [insertTree, lookupChrom, h]
  | cons p rest ih =>
    obtain ⟨c'', ivs⟩ := p
    by_cases h1 : c'' = c
    · subst h1
      by_cases h2 : c'' = c'
      · subst h2; simp [insertTree, lookupChrom]
      · simp [insertTree, lookupChrom, h2]
    · by_cases h2 : c'' = c'
      · subst h2
        have h3 : ¬ c = c'' := fun hc => h1 hc.symm
        simp [insertTree, lookupChrom, h1, h3]
      · simp [insertTree, lookupChrom, h1, h2, ih]

theorem pairIntervals_cons (p : ℕ × Region) (pairs : List (ℕ × Region)) (c : String) :
    pairIntervals (p :: pairs) c =
      if p.2.chrom = c then (⟨p.2.lo, p.2.hi, p.1⟩ : Interval) :: pairIntervals pairs c
      else pairIntervals pairs c := by
  by_cases h : p.2.chrom = c
  · simp [pairIntervals, h]
  · simp [pairIntervals, h]

theorem lookupChrom_foldInsert (pairs : List (ℕ × Region)) :
    ∀ (t0 : IntervalTreeMap) (c : String),
    lookupChrom (pairs.foldl (fun t p => insertTree t p.2.chrom ⟨p.2.lo, p.2.hi, p.1⟩) t0) c =
      match lookupChrom t0 c with
      | some l => some (l ++ pairIntervals pairs c)
      | none => if pairIntervals pairs c = [] then none else some (pairIntervals pairs c) := by
  induction pairs with
  | nil =>
    intro t0 c
    cases h : lookupChrom t0 c <;> simp [pairIntervals, h]
  | cons p rest ih =>
    intro t0 c
    rw [List.foldl_cons, ih, lookupChrom_insertTree, pairIntervals_cons]
    by_cases h : p.2.chrom = c
    · rw [if_pos h, if_pos h, h]
      cases h0 : lookupChrom t0 c with
      | some l => simp
      | none => simp
    · rw [if_neg h, if_neg h]

theorem lookupChrom_intervalListToIntervalTree (regions : List Region) (c : String) :
    lookupChrom (intervalListToIntervalTree regions) c =
      if chromIntervals regions c = [] then none
      else some (chromIntervals regions c) := by
  rw [intervalListToIntervalTree, lookupChrom_foldInsert]
  rfl

theorem exists_overlap_chromIntervals_iff {regions : List Region} {c : String}
    {s e : ℤ} :
    (∃ iv ∈ chromIntervals regions c, iv.lo < e ∧ s < iv.hi) ↔
      ∃ reg ∈ regions, reg.chrom = c ∧ reg.lo < e ∧ s < reg.hi := by
  constructor
  · rintro ⟨iv, hiv, hlo, hhi⟩
    simp only [chromIntervals, pairIntervals, List.mem_map, List.mem_filter] at hiv
    obtain ⟨p, ⟨hpe, hpc⟩, rfl⟩ := hiv
    refine ⟨p.2, ?_, by simpa using hpc, by simpa using hlo, by simpa using hhi⟩
    have hg := List.mem_enum_iff_getElem?.mp hpe
    exact List.getElem?_mem hg
  · rintro ⟨reg, hreg, hc, hlo, hhi⟩
    obtain ⟨i, hi⟩ := List.mem_iff_getElem?.mp hreg
    have hpe : (i, reg) ∈ regions.enum := List.mem_enum_iff_getElem?.mpr (by simpa using hi)
    refine ⟨⟨reg.lo, reg.hi, i⟩, ?_, hlo, hhi⟩
    simp only [chromIntervals, pairIntervals, List.mem_map, List.mem_filter]
    exact ⟨(i, reg), ⟨hpe, by simpa using hc⟩, rfl⟩

theorem overlapping_ne_nil_iff {ivs : List Interval} {s e : ℤ} :
    overlapping ivs s e ≠ [] ↔ ∃ iv ∈ ivs, iv.lo < e ∧ s < iv.hi := by
  unfold overlapping
  constructor
  · intro h
    rcases List.exists_mem_of_ne_nil _ h with ⟨iv, hiv⟩
    have hm := List.mem_filter.mp hiv
    exact ⟨iv, hm.1, by simpa using hm.2⟩
  · rintro ⟨iv, hiv, h1, h2⟩
    intro hc
    have hm : iv ∈ ivs.filter (fun iv => decide (iv.lo < e ∧ s < iv.hi)) :=
      List.mem_filter.mpr ⟨hiv, by simpa using And.intro h1 h2⟩
    rw [hc] at hm
    simp at hm


/-- C4 is false as stated on this code: in the explicit-target-list path
    a bin that merely overlaps its target without being contained is
    still assigned; bin chr1:150-250 against the single target region
    chr1:100-200 produces an aggregated row although the bin's end 250
    exceeds the target's end 200, so assignment is not restricted to
    fully contained bins and no containment code path exists. -/
theorem C4_containment_counterexample :
    (filter_scores_target_list_explicit ex4_scores ex4_regions).1 ≠ []
    ∧ ¬((mkRec "chr1" 150 250 "g" "u" 11 1 2 3).stop ≤
        ((ex4_regions.getD 0 ⟨"", 0, 0⟩).hi)) := by
  constructor
  · decide
  · decide

/-- C4 (amended): when the aggregator is given an explicit target region
    list it builds an interval tree over the list and runs the same
    overlap assignment as the prebuilt-index path: for a nonempty region
    list the two paths produce identical results, and a bin is assigned
    to some target exactly when a region on the bin's chromosome overlaps
    the bin's half-open span; full containment is not required and no
    containment code path exists. -/
theorem C4_overlap_semantics {K : Type} [LinearOrder K]
    (scores : List (K × Record)) (regions : List Region) (hne : regions ≠ []) :
    filter_scores_target_list_explicit scores regions =
      filter_scores_target_list scores (intervalListToIntervalTree regions)
    ∧ ∀ r : Record,
        ((assignTarget (intervalListToIntervalTree regions) r).isSome = true ↔
          ∃ reg ∈ regions, reg.chrom = r.chrom ∧ reg.lo < r.stop ∧ r.start < reg.hi) := by
  constructor
  · rw [filter_scores_target_list_explicit,
      if_neg (fun hc => hne (List.length_eq_zero.mp hc))]
  · intro r
    have key : (∃ iv ∈ chromIntervals regions r.chrom, iv.lo < r.stop ∧ r.start < iv.hi) ↔
        ∃ reg ∈ regions, reg.chrom = r.chrom ∧ reg.lo < r.stop ∧ r.start < reg.hi :=
      exists_overlap_chromIntervals_iff
    rw [assignTarget, lookupChrom_intervalListToIntervalTree]
    by_cases hc : chromIntervals regions r.chrom = []
    · rw [if_pos hc]
      simp only [Option.isSome_none]
      constructor
      · intro h; exact absurd h (by simp)
      · intro h
        obtain ⟨iv, hiv, -⟩ := key.mpr h
        rw [hc] at hiv
        simp at hiv
    · rw [if_neg hc]
      have hred : (match some (chromIntervals regions r.chrom) with
          | none => none
          | some ivs => (sortedIntervals (overlapping ivs r.start r.stop)).head?) =
          (sortedIntervals
            (overlapping (chromIntervals regions r.chrom) r.start r.stop)).head? := rfl
      rw [hred, Option.isSome_iff_ne_none, Ne, sortedIntervals_head_none_iff, ← key]
      constructor
      · intro h
        exact overlapping_ne_nil_iff.mp h
      · intro h
        exact overlapping_ne_nil_iff.mpr h

/-- Witness for the amended C4: path equality and the overlap criterion
    at the concrete overlapping-but-not-contained scenario. -/
theorem C4_overlap_semantics_witness :
    (filter_scores_target_list_explicit ex4_scores ex4_regions =
      filter_scores_target_list ex4_scores (intervalListToIntervalTree ex4_regions))
    ∧ ((assignTarget (intervalListToIntervalTree ex4_regions)
          (mkRec "chr1" 150 250 "g" "u" 11 1 2 3)).isSome = true ↔
        ∃ reg ∈ ex4_regions, reg.chrom = (mkRec "chr1" 150 250 "g" "u" 11 1 2 3).chrom ∧
          reg.lo < (mkRec "chr1" 150 250 "g" "u" 11 1 2 3).stop ∧
          (mkRec "chr1" 150 250 "g" "u" 11 1 2 3).start < reg.hi) :=
  ⟨(C4_overlap_semantics ex4_scores ex4_regions (by decide)).1,
   (C4_overlap_semantics ex4_scores ex4_regions (by decide)).2 _⟩

/-- C5 is false as stated on this code: a job whose aggregation produces
    zero rows still has its output file written and, in batch mode, still
    listed in the produced file names (the code comments call this out
    deliberately); in single-run mode nothing is fatal, the worker
    returns normally.  Concretely, a batch job over a bin on chr2 with
    targets on chr1 logs two 'Failed for' lines (one per sample of the
    pair) yet writes and lists both output files, and the single-run
    variant returns an ok result. -/
theorem C5_empty_result_counterexample :
    (run_target_list_compilation args5b env5 [("a.txt", "b.txt")] ["t.txt"] true).1.errorLog =
      ["Failed for: a.txt and b.txt.
", "Failed for: a.txt and b.txt.
"]
    ∧ (run_target_list_compilation args5b env5 [("a.txt", "b.txt")] ["t.txt"] true).1.names =
      ["a_agg.txt", "b_agg.txt"]
    ∧ ((run_target_list_compilation args5b env5 [("a.txt", "b.txt")] ["t.txt"] true).1.written.map
        Prod.fst) = ["a_agg.txt", "b_agg.txt"]
    ∧ (run_target_list_compilation args5s env5 [("a.txt", "b.txt")] ["t.txt"] false).2 =
      QueueMsg.ok [] := by
  refine ⟨?_, ?_, ?_, ?_⟩ <;> decide

/-- C5 (amended): for a sample whose aggregation produces zero rows, in
    batch mode the 'Failed for' line is appended to the error log and the
    output name is still recorded, in single-run mode nothing is logged
    or recorded, and in both modes the output file is still written (with
    zero data rows) and the step completes normally instead of exiting. -/
theorem C5_empty_result_behaviour {K : Type} [LinearOrder K]
    (args : AggArgs) (env : AggEnv K) (tree : Option IntervalTreeMap)
    (targetFile : Option String) (pair : String × String) (sample : String)
    (st : RunState K) (fr : List (K × Record) × List (K × Record))
    (hdisp : filterDispatch env (env.readInteraction (absSamplePath args sample)).2
        targetFile tree = some fr)
    (hempty : fr.1 = []) :
    processSample args env tree targetFile pair sample st = .ok
      ⟨(if args.batchMode = true then
          st.errorLog ++ ["Failed for: " ++ pair.1 ++ " and " ++ pair.2 ++ ".
"]
        else st.errorLog),
       st.written ++ [((if args.outputFolder ≠ "." then
           args.outputFolder ++ "/" ++ outName sample args.outFileNameSuffix
         else outName sample args.outFileNameSuffix),
         writeFile (env.readInteraction (absSamplePath args sample)).1 (some fr.1) fr.2)],
       (if args.batchMode = true then st.names ++ [outName sample args.outFileNameSuffix]
        else st.names)⟩ := by
  cases hb : args.batchMode with
  | true => simp [processSample, hdisp, hempty, hb]
  | false => simp [processSample, hdisp, hempty, hb]

/-- Witness for the amended C5 in single-run mode: the empty-result
    sample writes its output file and returns normally. -/
theorem C5_empty_result_behaviour_witness :
    processSample args5s env5 none (some "t.txt") ("a.txt", "b.txt") "a.txt"
      ⟨[], [], []⟩ =
      .ok ⟨[], [("a_agg.txt", writeFile "header
" (some ([] : List (ℕ × Record)))
        ex5_scores)], []⟩ := by
  have h := C5_empty_result_behaviour args5s env5 none (some "t.txt") ("a.txt", "b.txt")
    "a.txt" ⟨[], [], []⟩ ([], ex5_scores) (by decide) rfl
  have e : outName "a.txt" "agg.txt" = "a_agg.txt" := by decide
  simpa [args5s, env5, absSamplePath, e] using h


/-! ## Orchestrator, writer, manifest lemmas -/

theorem flatten_slices {α : Type} (per : ℕ) (l : List α) :
    ∀ n : ℕ, ((List.range n).map (fun i => (l.drop (i * per)).take per)).flatten =
      l.take (n * per)
  | 0 => by simp
  | n + 1 => by
    rw [List.range_succ, List.map_append, List.flatten_append, flatten_slices per l n]
    simp only [List.map_cons, List.map_nil, List.flatten_cons, List.flatten_nil,
      List.append_nil]
    rw [Nat.succ_mul, List.take_add]

/-- C6: for 1 ≤ W ≤ J the clamp leaves the worker count unchanged, and
    the job list is partitioned into W contiguous order-preserving
    slices: slice i holds floor(J/W) jobs for i < W-1, the last slice the
    remainder, and the concatenation of all slices is the job list. -/
theorem C6_shard_partition {α : Type} (jobs : List α) (W : ℕ)
    (h1 : 1 ≤ W) (hWJ : W ≤ jobs.length) :
    clampThreads jobs.length W = W
    ∧ (shardSlices jobs W).length = W
    ∧ (∀ i, i < W - 1 →
        ((shardSlices jobs W).getD i []).length = jobs.length / W)
    ∧ (shardSlices jobs W).flatten = jobs := by
  have hmul : jobs.length / W * W ≤ jobs.length := Nat.div_mul_le_self _ _
  refine ⟨?_, ?_, ?_, ?_⟩
  · rw [clampThreads, if_neg (by omega)]
  · simp [shardSlices]
  · intro i hi
    have hiW : i < W := by omega
    have hgd : (shardSlices jobs W).getD i [] =
        (jobs.drop (i * (jobs.length / W))).take (jobs.length / W) := by
      rw [shardSlices, List.getD_eq_getElem?_getD, List.getElem?_map,
        List.getElem?_range hiW]
      simp [hi]
    rw [hgd, List.length_take, List.length_drop]
    have hle : (i + 1) * (jobs.length / W) ≤ W * (jobs.length / W) :=
      Nat.mul_le_mul_right _ (by omega)
    have : W * (jobs.length / W) ≤ jobs.length := by
      rw [Nat.mul_comm]; exact hmul
    have : (i + 1) * (jobs.length / W) ≤ jobs.length := le_trans hle this
    rw [Nat.add_mul] at this
    omega
  · have hW : W = (W - 1) + 1 := by omega
    rw [shardSlices, hW, List.range_succ, List.map_append]
    rw [List.map_congr_left (g := fun i =>
        (jobs.drop (i * (jobs.length / W))).take (jobs.length / W)) ?hcong]
    case hcong =>
      intro i hi
      have : i < W - 1 := List.mem_range.mp hi
      simp only [← hW, if_pos this]
    rw [List.flatten_append, flatten_slices]
    simp only [← hW, List.map_cons, List.map_nil, List.flatten_cons, List.flatten_nil,
      List.append_nil]
    have hnl : ¬ (W - 1 < W - 1) := by omega
    rw [if_neg hnl]
    exact List.take_append_drop _ jobs

/-- Witness for C6: five jobs on two workers split 2 and 3. -/
theorem C6_shard_partition_witness :
    clampThreads ([0, 1, 2, 3, 4] : List ℕ).length 2 = 2
    ∧ (shardSlices [0, 1, 2, 3, 4] 2).length = 2
    ∧ (∀ i, i < 2 - 1 →
        ((shardSlices ([0, 1, 2, 3, 4] : List ℕ) 2).getD i []).length =
          ([0, 1, 2, 3, 4] : List ℕ).length / 2)
    ∧ (shardSlices ([0, 1, 2, 3, 4] : List ℕ) 2).flatten = [0, 1, 2, 3, 4] :=
  C6_shard_partition [0, 1, 2, 3, 4] 2 (by decide) (by decide)

/-- C7: one shard reporting the failure payload makes the collected
    outcome exit code 1 and suppresses the manifest; if every shard
    reports a marker-free name list the outcome is the flattened
    concatenation of the shard lists in shard order, which the manifest
    joins with newlines. -/
theorem C7_failfast_collection (results : List QueueMsg) :
    ((∃ msg, QueueMsg.fail ("Fail: " ++ msg) ∈ results) →
      collectOutcome results = .error 1
      ∧ mainBatchManifest (collectOutcome results) = none)
    ∧ ((∀ r ∈ results, ∃ names, r = QueueMsg.ok names ∧ "Fail:" ∉ names) →
      collectOutcome results = .ok ((results.map queueMsgItems).flatten)
      ∧ mainBatchManifest (collectOutcome results) =
          some (String.intercalate "
" ((results.map queueMsgItems).flatten))) := by
  constructor
  · rintro ⟨msg, hmem⟩
    have hpf : queueMsgHasFail (QueueMsg.fail ("Fail: " ++ msg)) = true := by
      simp only [queueMsgHasFail]
      rw [ List.isPrefixOf_iff_prefix]
      refine List.IsPrefix.trans ?_ ⟨msg.data, rfl⟩
      show "Fail:".data <+: ("Fail: ").data
      decide
    have hany : results.any queueMsgHasFail = true :=
      List.any_eq_true.mpr ⟨_, hmem, hpf⟩
    rw [collectOutcome, if_pos hany]
    exact ⟨rfl, rfl⟩
  · intro hall
    have hany : results.any queueMsgHasFail = false := by
      rw [List.any_eq_false]
      intro r hr
      obtain ⟨names, rfl, hno⟩ := hall r hr
      simp only [queueMsgHasFail, Bool.not_eq_true]
      rw [← Bool.not_eq_true]
      intro hc
      exact hno (List.mem_of_elem_eq_true hc)
    rw [collectOutcome, if_neg (by rw [hany]; simp)]
    exact ⟨rfl, rfl⟩

/-- Witness for C7: a failing shard forces exit 1 and no manifest; two
    clean shards flatten in order. -/
theorem C7_failfast_collection_witness :
    (collectOutcome [QueueMsg.fail ("Fail: " ++ "boom"), QueueMsg.ok ["x"]] = .error 1
      ∧ mainBatchManifest (collectOutcome
          [QueueMsg.fail ("Fail: " ++ "boom"), QueueMsg.ok ["x"]]) = none)
    ∧ (collectOutcome [QueueMsg.ok ["x"], QueueMsg.ok ["y", "z"]] =
        .ok (([QueueMsg.ok ["x"], QueueMsg.ok ["y", "z"]].map queueMsgItems).flatten)
      ∧ mainBatchManifest (collectOutcome [QueueMsg.ok ["x"], QueueMsg.ok ["y", "z"]]) =
          some (String.intercalate "
"
            (([QueueMsg.ok ["x"], QueueMsg.ok ["y", "z"]].map queueMsgItems).flatten))) :=
  ⟨(C7_failfast_collection [QueueMsg.fail ("Fail: " ++ "boom"), QueueMsg.ok ["x"]]).1
      ⟨"boom", by simp⟩,
   (C7_failfast_collection [QueueMsg.ok ["x"], QueueMsg.ok ["y", "z"]]).2 (by
      intro r hr
      rcases List.mem_cons.mp hr with h | h
      · exact ⟨["x"], h, by decide⟩
      · rcases List.mem_cons.mp h with h2 | h2
        · exact ⟨["y", "z"], h2, by decide⟩
        · simp at h2)⟩

theorem foldl_append_singleton {α β : Type} (f : α → β) :
    ∀ (l : List α) (acc : List β),
    l.foldl (fun cs a => cs ++ [f a]) acc = acc ++ l.map f
  | [], acc => by simp
  | a :: t, acc => by
    rw [List.foldl_cons, foldl_append_singleton f t (acc ++ [f a])]
    simp

theorem digitChar_isDigit : ∀ n : ℕ, n < 10 → (Nat.digitChar n).isDigit = true := by
  decide

theorem length_padLeftSpaces (w : ℕ) (s : String) :
    (padLeftSpaces w s).length = max w s.length := by
  rw [padLeftSpaces, String.length_append]
  have hmk : (String.mk (List.replicate (w - s.length) ' ')).length = w - s.length := by
    show (List.replicate (w - s.length) ' ').length = w - s.length
    exact List.length_replicate _ _
  omega

/-- C8: the writer emits, in order, the version comment chunk, the
    interaction header, the fixed column-header line and a newline, then
    exactly one row chunk per aggregated entry; every formatted value
    occupies at least ten characters and carries exactly five digits
    after its decimal point. -/
theorem C8_output_format {K : Type} [LinearOrder K] (header : String)
    (nb : List (K × Record)) (lines : List (K × Record)) :
    writeFile header (some nb) lines =
      [versionChunk, header, headerLineOut, "
"] ++ nb.map (rowChunk lines)
    ∧ (nb.map (rowChunk lines)).length = nb.length
    ∧ ∀ q : ℚ, 10 ≤ (formatFixed10_5 q).length ∧
        ∃ pre frac, formatFixed10_5 q = pre ++ "." ++ frac ∧ frac.length = 5 ∧
          ∀ c ∈ frac.data, c.isDigit = true := by
  refine ⟨?_, by simp, ?_⟩
  · rw [writeFile]
    exact foldl_append_singleton _ nb _
  · intro q
    constructor
    · rw [formatFixed10_5, length_padLeftSpaces]
      exact le_max_left _ _
    · rw [formatFixed10_5]
      set A := (if round (q * 100000) < 0 then "-" else "")
        ++ toString ((round (q * 100000)).natAbs / 100000) with hA
      set m := (round (q * 100000)).natAbs % 100000 with hm
      refine ⟨String.mk (List.replicate
          (10 - (A ++ "." ++ digitChar5 m).length) ' ') ++ A, digitChar5 m, ?_, ?_, ?_⟩
      · rw [padLeftSpaces]
        simp [String.append_assoc]
      · simp [digitChar5, String.length]
      · intro c hc
        simp only [digitChar5] at hc
        have hc' : c ∈ [Nat.digitChar (m / 10000 % 10), Nat.digitChar (m / 1000 % 10),
            Nat.digitChar (m / 100 % 10), Nat.digitChar (m / 10 % 10),
            Nat.digitChar (m % 10)] := hc
        simp only [List.mem_cons, List.not_mem_nil, or_false] at hc'
        rcases hc' with h | h | h | h | h <;>
          (subst h; exact digitChar_isDigit _ (Nat.mod_lt _ (by norm_num)))

/-- The recursion of parsePairs against the pairUp view of the manifest. -/
theorem parsePairs_spec : ∀ lines : List String,
    parsePairs lines =
      ((pairUp lines).takeWhile (fun p => decide (p.1 ≠ ""))).filter
        (fun p => decide (p.1 ≠ "" ∧ p.2 ≠ ""))
  | [] => by simp [parsePairs, pairUp]
  | [l1] => by
    by_cases h : l1 = "" <;>
      simp [parsePairs, pairUp, h, List.takeWhile, List.filter]
  | l1 :: l2 :: rest => by
    have ih := parsePairs_spec rest
    by_cases h1 : l1 = ""
    · subst h1
      simp [parsePairs, pairUp, List.takeWhile]
    · by_cases h2 : l2 = ""
      · simp [parsePairs, pairUp, h1, h2, List.takeWhile, List.filter, ih]
      · simp [parsePairs, pairUp, h1, h2, List.takeWhile, List.filter, ih]

/-- C10: manifest pairing parses exactly the consecutive (line 2k, line
    2k+1) pairs before the first pair with an empty first line in which
    both lines are non-empty; parsing stops at the first empty first line
    of a pair, and a trailing unpaired file name is silently dropped. -/
theorem C10_manifest_pairing (lines : List String) :
    (parsePairs lines =
      ((pairUp lines).takeWhile (fun p => decide (p.1 ≠ ""))).filter
        (fun p => decide (p.1 ≠ "" ∧ p.2 ≠ "")))
    ∧ parsePairs ["a.txt", "b.txt", "c.txt"] = [("a.txt", "b.txt")]
    ∧ parsePairs ["a.txt", "b.txt", "", "x.txt", "y.txt"] = [("a.txt", "b.txt")] := by
  refine ⟨parsePairs_spec lines, by decide, by decide⟩

end ChicAggregate
